import Mathlib

/-!
Shallow embedding of `src/repositoryAnalyzer.py`: a script that mines a git
repository's commit history (via the external pydriller collaborator),
extracts per-file cyclomatic-complexity metrics, filters them, groups them
by file name or by date/hash, derives sorted file/email lists, and writes
JSON output.

The external mining library (pydriller) is modelled only through the shape
of the data it delivers (`Commit`, `ModifiedFile`); everything else is a
direct translation of the Python source.  Python floats are modelled as
exact rationals; Python `list.sort` / `sorted` (Timsort, stable) is
modelled by a stable insertion sort; Python dicts are modelled as
association lists with insertion-order semantics (`dictInsert` updates an
existing key in place or appends a fresh key at the end); raising an
exception is modelled by `Except.error`.
-/

/-- A modified-file record delivered by the mining library: file name,
cyclomatic complexity (`none` when not computable, e.g. binary files), and
the list of methods (the source only uses `len(file.methods)`). -/
structure ModifiedFile where
  filename : String
  complexity : Option Nat
  methods : List String
deriving DecidableEq

/-- A commit record delivered by the mining library.  `modified_files` is
`none` when the library reports no modified-file list (the source checks
`commit.modified_files is None`). -/
structure Commit where
  hash : String
  author_date : String
  author_name : String
  author_email : String
  branches : List String
  modified_files : Option (List ModifiedFile)
deriving DecidableEq

/-- The `ParsedCommit` dataclass of the source: one metric record per
(commit, modified file) pair that survives filtering. -/
structure ParsedCommit where
  hash : String
  date : String
  user : String
  email : String
  branches : List String
  file_name : String
  ccn : Nat
  avg_ccn : ℚ
deriving DecidableEq

section Sorting

variable {α : Type} {κ : Type} [LinearOrder κ]

/-- Insert `x` into a list sorted by `key`, before the first element whose
key is `≥ key x`.  Together with `pySort` this is a stable insertion sort,
modelling Python's stable `list.sort(key=...)` / `sorted(..., key=...)`. -/
def insertK (key : α → κ) (x : α) : List α → List α
  | [] => [x]
  | y :: ys => if key x ≤ key y then x :: y :: ys else y :: insertK key x ys

/-- Stable sort by `key`, modelling Python's `list.sort(key=...)`. -/
def pySort (key : α → κ) : List α → List α
  | [] => []
  | x :: xs => insertK key x (pySort key xs)

end Sorting

/-- Partition a list into maximal contiguous runs of elements sharing a
key, modelling `itertools.groupby(..., key=...)` (the source always applies
it after sorting). -/
def groupRuns {α κ : Type} [DecidableEq κ] (key : α → κ) : List α → List (List α)
  | [] => []
  | [x] => [[x]]
  | x :: y :: xs =>
    match groupRuns key (y :: xs) with
    | [] => [[x]]
    | g :: gs => if key x = key y then (x :: g) :: gs else [x] :: g :: gs

/-- Python-dict assignment `d[k] = v` on an association list: replace the
value at the first occurrence of `k`, or append `(k, v)` at the end. -/
def dictInsert {κ β : Type} [DecidableEq κ] (k : κ) (v : β) : List (κ × β) → List (κ × β)
  | [] => [(k, v)]
  | (k₀, v₀) :: rest => if k₀ = k then (k, v) :: rest else (k₀, v₀) :: dictInsert k v rest

/-- Python-dict lookup `d[k]` on an association list. -/
def dictGet {κ β : Type} [DecidableEq κ] (k : κ) : List (κ × β) → Option β
  | [] => none
  | (k₀, v) :: rest => if k₀ = k then some v else dictGet k rest

/-- Split a character list at its last dot, returning the parts before and
after that dot (helper for `splitext`). -/
def splitOnLastDot : List Char → Option (List Char × List Char)
  | [] => none
  | c :: cs =>
    match splitOnLastDot cs with
    | some (a, b) => some (c :: a, b)
    | none => if c = '.' then some ([], cs) else none

/-- Model of `os.path.splitext` restricted to bare file names: split off the
extension at the last dot, provided some character before that dot is not
itself a dot (so `".bashrc"` has no extension, as in Python). -/
def splitext (s : String) : String × String :=
  match splitOnLastDot s.data with
  | none => (s, "")
  | some (a, b) =>
    if a.any (fun c => c != '.') then (String.mk a, String.mk ('.' :: b)) else (s, "")

/-- The filter guard of the source, as a pass-predicate: the source skips
when `(x not in flt) and (len(flt) > 0)`, so a record passes when it is in
the filter list or the filter list is empty. -/
def passFilter (flt : List String) (x : String) : Bool :=
  !(decide (x ∉ flt) && decide (flt.length > 0))

/-- Lines 92-98 of the source: average complexity is
`complexity / num_of_methods` when there is at least one method, else `0`
(Python float division, modelled exactly on `ℚ`). -/
def avgOf (complexity num_of_methods : Nat) : ℚ :=
  if num_of_methods > 0 then (complexity : ℚ) / num_of_methods else 0

/-- The body of the inner `for file in commit.modified_files` loop of
`parse_commits`: apply the name filter, then the extension filter, then
skip when complexity is `None`, else build a `ParsedCommit` (whose
`branches` field is `sorted(list(branches))`). -/
def processFile (commit : Commit) (filter_by_name filter_by_extension : List String)
    (file : ModifiedFile) : Option ParsedCommit :=
  let fs := splitext file.filename
  if passFilter filter_by_name fs.1 then
    if passFilter filter_by_extension fs.2 then
      match file.complexity with
      | none => none
      | some complexity =>
        some ⟨commit.hash, commit.author_date, commit.author_name, commit.author_email,
              pySort (fun s => s.data) commit.branches, fs.1, complexity,
              avgOf complexity file.methods.length⟩
    else none
  else none

/-- One iteration of the outer commit loop of `parse_commits`: a commit
whose author email fails a non-empty email filter is skipped; otherwise the
source logs a merge marker when `modified_files is None` and then iterates
`commit.modified_files` anyway, which raises `TypeError` on `None`. -/
def processCommit (filter_by_name filter_by_extension filter_by_email : List String)
    (commit : Commit) : Except String (List ParsedCommit) :=
  if passFilter filter_by_email commit.author_email then
    match commit.modified_files with
    | none => Except.error "TypeError: NoneType object is not iterable"
    | some files =>
      Except.ok (files.filterMap (processFile commit filter_by_name filter_by_extension))
  else Except.ok []

/-- The commit loop of `parse_commits`: records accumulate in traversal
order; an exception aborts the whole call. -/
def parseGo (filter_by_name filter_by_extension filter_by_email : List String) :
    List Commit → Except String (List ParsedCommit)
  | [] => Except.ok []
  | c :: cs =>
    match processCommit filter_by_name filter_by_extension filter_by_email c with
    | Except.error e => Except.error e
    | Except.ok rs =>
      match parseGo filter_by_name filter_by_extension filter_by_email cs with
      | Except.error e => Except.error e
      | Except.ok rest => Except.ok (rs ++ rest)

/-- Function `parse_commits` of the source; the repository path is replaced by the
commit sequence that `Repository(repo_path).traverse_commits()` (external
collaborator) would deliver. -/
def parse_commits (commits : List Commit)
    (filter_by_name filter_by_extension filter_by_email : List String) :
    Except String (List ParsedCommit) :=
  parseGo filter_by_name filter_by_extension filter_by_email commits

/-- Comparison definition for the claim that empty filters mean "no
filtering at all": the inner loop body with every filter check removed,
following the spec's words; only the complexity skip remains. -/
def processFileNF (commit : Commit) (file : ModifiedFile) : Option ParsedCommit :=
  let fs := splitext file.filename
  match file.complexity with
  | none => none
  | some complexity =>
    some ⟨commit.hash, commit.author_date, commit.author_name, commit.author_email,
          pySort (fun s => s.data) commit.branches, fs.1, complexity,
          avgOf complexity file.methods.length⟩

/-- Comparison definition: one commit iteration with no email filtering. -/
def processCommitNF (commit : Commit) : Except String (List ParsedCommit) :=
  match commit.modified_files with
  | none => Except.error "TypeError: NoneType object is not iterable"
  | some files => Except.ok (files.filterMap (processFileNF commit))

/-- Comparison definition: the commit loop with no filtering at all. -/
def parseGoNF : List Commit → Except String (List ParsedCommit)
  | [] => Except.ok []
  | c :: cs =>
    match processCommitNF c with
    | Except.error e => Except.error e
    | Except.ok rs =>
      match parseGoNF cs with
      | Except.error e => Except.error e
      | Except.ok rest => Except.ok (rs ++ rest)

/-- Comparison definition: extraction with no filter argument at all. -/
def parse_commits_nofilter (commits : List Commit) : Except String (List ParsedCommit) :=
  parseGoNF commits

/-- The claim "for every modified-file record in a surviving commit,
extraction skips the record exactly when its complexity is absent",
rendered literally: within any commit, with any name/extension filters, a
modified file yields a record if and only if its complexity is present. -/
def claimSkipIffNoComplexity : Prop :=
  ∀ (commit : Commit) (filter_by_name filter_by_extension : List String)
    (files : List ModifiedFile) (file : ModifiedFile),
    commit.modified_files = some files → file ∈ files →
      ((processFile commit filter_by_name filter_by_extension file).isSome ↔
        file.complexity ≠ none)

/-- Function `get_list_of_files` of the source: first-occurrence deduplication of
the file names, then `sorted`. -/
def get_list_of_files (data : List ParsedCommit) : List String :=
  pySort (fun s => s.data)
    (data.foldl (fun acc item => if item.file_name ∈ acc then acc else acc ++ [item.file_name]) [])

/-- Function `get_list_of_user_emails` of the source: first-occurrence deduplication
of the author emails, then `sorted`. -/
def get_list_of_user_emails (data : List ParsedCommit) : List String :=
  pySort (fun s => s.data)
    (data.foldl (fun acc item => if item.email ∈ acc then acc else acc ++ [item.email]) [])

/-- Decimal rendering of thousandths: `natFmt3 2000 = "2.000"`. -/
def natFmt3 (n : Nat) : String :=
  toString (n / 1000) ++ "." ++
    (if n % 1000 < 10 then "00" else if n % 1000 < 100 then "0" else "") ++ toString (n % 1000)

/-- The f-string `f"{x:.3f}"` of the source: fixed 3-decimal-place
rendering of an average.  Python floats are modelled as exact rationals;
the value is scaled to thousandths and rounded half-to-even (the rounding
Python uses for fixed-point float formatting), all in integer arithmetic
on the reduced fraction `q.num / q.den`:  `f` is the floor of `1000 q` and
`r / d` its fractional part. -/
def fmt3 (q : ℚ) : String :=
  let n : ℤ := q.num * 1000
  let d : ℤ := (q.den : ℤ)
  let f : ℤ := Int.fdiv n d
  let r : ℤ := n - f * d
  let k : ℤ :=
    if 2 * r < d then f
    else if d < 2 * r then f + 1
    else if f % 2 = 0 then f else f + 1
  if k < 0 then "-" ++ natFmt3 (-k).toNat else natFmt3 k.toNat

/-- The per-group record built by `group_data_by_file`:
`record = dict(filename=group[0].file_name)` followed by
`record[item.date] = f"{item.avg_ccn:.3f}"` for each item.  The source
would raise `IndexError` on an empty group; `groupby` never yields one. -/
def mkFileRecord : List ParsedCommit → List (String × String)
  | [] => []
  | r :: rs =>
    (r :: rs).foldl (fun d it => dictInsert it.date (fmt3 it.avg_ccn) d)
      [("filename", r.file_name)]

/-- The sort-then-group core of `group_data_by_file`: stable-sort by file
name, then take maximal contiguous runs of equal file name. -/
def groupedByFile (input_data : List ParsedCommit) : List (List ParsedCommit) :=
  groupRuns (fun x => x.file_name) (pySort (fun x => x.file_name.data) input_data)

/-- Function `group_data_by_file` with the frame effect made explicit: the first
component is the return value, the second is the content of the caller's
list after the call (`input_data.sort(...)` sorts it in place). -/
def group_data_by_file_st (input_data : List ParsedCommit) :
    List (List (String × String)) × List ParsedCommit :=
  ((groupedByFile input_data).map mkFileRecord,
   pySort (fun x => x.file_name.data) input_data)

/-- The return value of `group_data_by_file`. -/
def group_data_by_file (input_data : List ParsedCommit) : List (List (String × String)) :=
  (group_data_by_file_st input_data).1

/-- JSON values as produced by the script (it never serializes numbers:
averages are pre-formatted strings). -/
inductive JVal where
  | str : String → JVal
  | arr : List JVal → JVal
  | obj : List (String × JVal) → JVal

/-- Whether a JSON value is an object (a mapping). -/
def JVal.isObj : JVal → Bool
  | .obj _ => true
  | _ => false

/-- The per-group record built by `group_data_by_date`: a dict of hash,
timestamp, user, user_email and branches, then one entry per item mapping
its file name to the formatted average. -/
def mkDateRecord : List ParsedCommit → List (String × JVal)
  | [] => []
  | r :: rs =>
    (r :: rs).foldl (fun d it => dictInsert it.file_name (JVal.str (fmt3 it.avg_ccn)) d)
      [("hash", JVal.str r.hash), ("timestamp", JVal.str r.date), ("user", JVal.str r.user),
       ("user_email", JVal.str r.email), ("branches", JVal.arr (r.branches.map JVal.str))]

/-- The sort-then-group core of `group_data_by_date`: stable-sort by date,
then take maximal contiguous runs of equal commit hash. -/
def groupedByDate (input_data : List ParsedCommit) : List (List ParsedCommit) :=
  groupRuns (fun x => x.hash) (pySort (fun x => x.date.data) input_data)

/-- Function `group_data_by_date` with the frame effect made explicit: the second
component is the caller's list after the in-place sort by date. -/
def group_data_by_date_st (input_data : List ParsedCommit) :
    List (List (String × JVal)) × List ParsedCommit :=
  ((groupedByDate input_data).map mkDateRecord,
   pySort (fun x => x.date.data) input_data)

/-- The return value of `group_data_by_date`. -/
def group_data_by_date (input_data : List ParsedCommit) : List (List (String × JVal)) :=
  (group_data_by_date_st input_data).1

/-- The by-file report as a JSON value: an array of objects whose values
are the pre-formatted strings. -/
def jvalOfFileReport (rs : List (List (String × String))) : JVal :=
  JVal.arr (rs.map (fun r => JVal.obj (r.map (fun kv => (kv.1, JVal.str kv.2)))))

/-- Lower-case hexadecimal digit, as used by Python's `json` escaping. -/
def hexDigit (n : Nat) : Char :=
  if n < 10 then Char.ofNat (48 + n) else Char.ofNat (87 + n)

/-- JSON string escaping of one character. -/
def escChar (c : Char) : List Char :=
  if c = '"' then ['\\', '"']
  else if c = '\\' then ['\\', '\\']
  else if c = '\n' then ['\\', 'n']
  else if c = '\t' then ['\\', 't']
  else if c = '\r' then ['\\', 'r']
  else if c.toNat < 32 then
    ['\\', 'u', '0', '0', hexDigit (c.toNat / 16), hexDigit (c.toNat % 16)]
  else [c]

/-- JSON string escaping. -/
def escapeJson (s : String) : String := String.mk (s.data.flatMap escChar)

/-- A JSON string literal. -/
def quoteJson (s : String) : String := "\"" ++ escapeJson s ++ "\""

/-- Indentation of `ind * level` spaces. -/
def indentStr (ind level : Nat) : String := String.mk (List.replicate (ind * level) ' ')

mutual

/-- Model of `json.dumps(v, indent=ind)` at nesting depth `level`. -/
def dumpJVal (ind level : Nat) : JVal → String
  | .str s => quoteJson s
  | .arr [] => "[]"
  | .arr (x :: xs) =>
    "[\n" ++ dumpItems ind (level + 1) (x :: xs) ++ "\n" ++ indentStr ind level ++ "]"
  | .obj [] => "\x7b\x7d"
  | .obj (kv :: kvs) =>
    "\x7b\n" ++ dumpPairs ind (level + 1) (kv :: kvs) ++ "\n" ++ indentStr ind level ++ "\x7d"

/-- Array elements, comma-newline separated, each on an indented line. -/
def dumpItems (ind level : Nat) : List JVal → String
  | [] => ""
  | [x] => indentStr ind level ++ dumpJVal ind level x
  | x :: y :: xs =>
    indentStr ind level ++ dumpJVal ind level x ++ ",\n" ++ dumpItems ind level (y :: xs)

/-- Object members, comma-newline separated, each on an indented line. -/
def dumpPairs (ind level : Nat) : List (String × JVal) → String
  | [] => ""
  | [(k, v)] => indentStr ind level ++ quoteJson k ++ ": " ++ dumpJVal ind level v
  | (k, v) :: kv :: kvs =>
    indentStr ind level ++ quoteJson k ++ ": " ++ dumpJVal ind level v ++ ",\n" ++
      dumpPairs ind level (kv :: kvs)

end

/-- Model of `json.dumps(data, indent=ind)`. -/
def jsonDumps (data : JVal) (ind : Nat) : String := dumpJVal ind 0 data

/-- Function `write_data_to_json` of the source, with the file system modelled as an
association list from path to content: the serialized document is written
to `output_file_name + ".json"` in mode `"w"` (creating or overwriting). -/
def write_data_to_json (output_file_name : String) (data : JVal)
    (fs : List (String × String)) : List (String × String) :=
  dictInsert (output_file_name ++ ".json") (jsonDumps data 2) fs

/-! Concrete inputs used to exercise the pipeline: the two synthetic
commits of the end-to-end scenario, a commit with an empty modified-file
list, a commit with an absent (`None`) modified-file list, a filtered-out
file with computable complexity, and a file with zero complexity. -/

/-- Scenario: `foo.c` in commit 1, complexity 4, two methods. -/
def foocMF1 : ModifiedFile := ⟨"foo.c", some 4, ["m1", "m2"]⟩

/-- Scenario: `bar.py` in commit 1, complexity absent. -/
def barpyMF : ModifiedFile := ⟨"bar.py", none, ["m1"]⟩

/-- Scenario: `foo.c` in commit 2, complexity 9, three methods. -/
def foocMF2 : ModifiedFile := ⟨"foo.c", some 9, ["m1", "m2", "m3"]⟩

/-- Scenario commit 1. -/
def commitFoo1 : Commit := ⟨"h1", "ts1", "alice", "a@x", ["main"], some [foocMF1, barpyMF]⟩

/-- Scenario commit 2. -/
def commitFoo2 : Commit := ⟨"h2", "ts2", "bob", "b@x", ["main"], some [foocMF2]⟩

/-- The metric record the scenario extracts from commit 1. -/
def recFoo1 : ParsedCommit := ⟨"h1", "ts1", "alice", "a@x", ["main"], "foo", 4, 2⟩

/-- The metric record the scenario extracts from commit 2. -/
def recFoo2 : ParsedCommit := ⟨"h2", "ts2", "bob", "b@x", ["main"], "foo", 9, 3⟩

/-- A commit whose modified-file list is present but empty. -/
def emptyFilesCommit : Commit := ⟨"h1", "d1", "u1", "e1", ["main"], some []⟩

/-- A commit whose modified-file list is absent (`None`), as the source
expects of a merge commit. -/
def absentFilesCommit : Commit := ⟨"h2", "d2", "u2", "e2", ["main"], none⟩

/-- A file with computable complexity that a `.c` extension filter skips. -/
def barpyPresentMF : ModifiedFile := ⟨"bar.py", some 5, ["m1"]⟩

/-- A commit containing only `barpyPresentMF`. -/
def barpyPresentCommit : Commit := ⟨"h3", "d3", "u3", "e3", [], some [barpyPresentMF]⟩

/-- A file whose measured complexity is the integer 0. -/
def zeroMF : ModifiedFile := ⟨"zero.c", some 0, []⟩

/-- A commit containing only `zeroMF`. -/
def zeroCommit : Commit := ⟨"h4", "d4", "u4", "e4", [], some [zeroMF]⟩

/-- A commit whose single file has complexity 4 over two methods. -/
def avgCommit : Commit := ⟨"h5", "d5", "u5", "e5", [], some [⟨"a.c", some 4, ["m", "n"]⟩]⟩

/-- The record extracted from `avgCommit`. -/
def avgRec : ParsedCommit := ⟨"h5", "d5", "u5", "e5", [], "a", 4, avgOf 4 2⟩

/-! ### Properties of the stable sort -/

section SortLemmas

variable {α : Type} {κ : Type} [LinearOrder κ] (key : α → κ)

theorem insertK_perm (x : α) (l : List α) : List.Perm (insertK key x l) (x :: l) := by
  induction l with
  | nil => simp [insertK]
  | cons y ys ih =>
    by_cases h : key x ≤ key y
    · simp [insertK, h]
    · simpa [insertK, h] using (ih.cons y).trans (List.Perm.swap x y ys)

theorem pySort_perm (l : List α) : List.Perm (pySort key l) l := by
  induction l with
  | nil => simp [pySort]
  | cons x xs ih => exact (insertK_perm key x (pySort key xs)).trans (ih.cons x)

theorem insertK_pairwise (x : α) (l : List α)
    (h : l.Pairwise (fun a b => key a ≤ key b)) :
    (insertK key x l).Pairwise (fun a b => key a ≤ key b) := by
  induction l with
  | nil => simp [insertK]
  | cons y ys ih =>
    rw [List.pairwise_cons] at h
    obtain ⟨hy, hys⟩ := h
    by_cases hxy : key x ≤ key y
    · rw [insertK, if_pos hxy, List.pairwise_cons]
      refine ⟨fun z hz => ?_, ?_⟩
      · rcases List.mem_cons.mp hz with rfl | hz
        · exact hxy
        · exact hxy.trans (hy z hz)
      · rw [List.pairwise_cons]
        exact ⟨hy, hys⟩
    · rw [insertK, if_neg hxy, List.pairwise_cons]
      refine ⟨fun z hz => ?_, ih hys⟩
      rcases List.mem_cons.mp ((insertK_perm key x ys).mem_iff.mp hz) with rfl | hz
      · exact le_of_not_le hxy
      · exact hy z hz

theorem pySort_pairwise (l : List α) :
    (pySort key l).Pairwise (fun a b => key a ≤ key b) := by
  induction l with
  | nil => simp [pySort]
  | cons x xs ih => exact insertK_pairwise key x (pySort key xs) ih

theorem insertK_filter_key [DecidableEq κ] (k : κ) (x : α) (l : List α) :
    (insertK key x l).filter (fun z => decide (key z = k)) =
      ((x :: l).filter (fun z => decide (key z = k))) := by
  induction l with
  | nil => simp [insertK]
  | cons y ys ih =>
    by_cases hxy : key x ≤ key y
    · rw [insertK, if_pos hxy]
    · have hlt : key y < key x := lt_of_not_le hxy
      rw [insertK, if_neg hxy]
      by_cases hy : key y = k <;> by_cases hx : key x = k
      · exact absurd (hy.trans hx.symm) (ne_of_lt hlt)
      · simp [List.filter_cons, hy, hx, ih]
      · simp [List.filter_cons, hy, hx, ih]
      · simp [List.filter_cons, hy, hx, ih]

theorem pySort_filter_key [DecidableEq κ] (k : κ) (l : List α) :
    (pySort key l).filter (fun z => decide (key z = k)) =
      l.filter (fun z => decide (key z = k)) := by
  induction l with
  | nil => simp [pySort]
  | cons x xs ih =>
    rw [pySort, insertK_filter_key, List.filter_cons, List.filter_cons, ih]

end SortLemmas

/-! ### Properties of run grouping -/

section GroupLemmas

variable {α : Type} {κ : Type} [DecidableEq κ]

theorem groupRuns_cons (key : α → κ) (x : α) (xs : List α) :
    groupRuns key (x :: xs) =
      (x :: xs.takeWhile (fun y => decide (key y = key x))) ::
        groupRuns key (xs.dropWhile (fun y => decide (key y = key x))) := by
  induction xs generalizing x with
  | nil => simp [groupRuns]
  | cons y ys ih =>
    by_cases h : key x = key y
    · simp [groupRuns, ih y, h]
    · have hyx : decide (key y = key x) = false := by
        simp only [decide_eq_false_iff_not]
        exact fun hc => h hc.symm
      simp [groupRuns, ih y, h, hyx]

theorem groupRuns_flatten (key : α → κ) : ∀ l : List α, (groupRuns key l).flatten = l
  | [] => by simp [groupRuns]
  | [x] => by simp [groupRuns]
  | x :: y :: xs => by
    have ih := groupRuns_flatten key (y :: xs)
    cases hg : groupRuns key (y :: xs) with
    | nil => rw [hg] at ih; simp at ih
    | cons g gs =>
      rw [hg] at ih
      simp only [List.flatten_cons] at ih
      by_cases h : key x = key y <;> simp [groupRuns, hg, h, List.flatten_cons, ih]

end GroupLemmas

section SortedRuns

variable {α : Type} {κ : Type} [LinearOrder κ] [DecidableEq κ] (key : α → κ)

theorem sorted_takeWhile_dropWhile_eq_filter (x : α) (xs : List α)
    (hx : ∀ z ∈ xs, key x ≤ key z)
    (hxs : xs.Pairwise (fun a b => key a ≤ key b)) :
    xs.takeWhile (fun z => decide (key z = key x)) =
        xs.filter (fun z => decide (key z = key x)) ∧
      xs.dropWhile (fun z => decide (key z = key x)) =
        xs.filter (fun z => !decide (key z = key x)) := by
  induction xs with
  | nil => simp
  | cons y ys ih =>
    rw [List.pairwise_cons] at hxs
    obtain ⟨hy, hys⟩ := hxs
    by_cases h : key y = key x
    · obtain ⟨ih1, ih2⟩ := ih (fun z hz => hx z (List.mem_cons_of_mem _ hz)) hys
      simp [List.takeWhile_cons, List.dropWhile_cons, List.filter_cons, h, ih1, ih2]
    · have hlt : key x < key y :=
        lt_of_le_of_ne (hx y (List.mem_cons_self _ _)) (fun hc => h hc.symm)
      have hzs : ∀ z ∈ ys, ¬ key z = key x :=
        fun z hz => ne_of_gt (lt_of_lt_of_le hlt (hy z hz))
      constructor
      · have hnil : List.filter (fun z => decide (key z = key x)) (y :: ys) = [] := by
          rw [List.filter_eq_nil_iff]
          intro z hz
          rcases List.mem_cons.mp hz with rfl | hz
          · simp [h]
          · simp [hzs z hz]
        simp [List.takeWhile_cons, h, hnil]
      · have hself : List.filter (fun z => !decide (key z = key x)) ys = ys :=
          List.filter_eq_self.mpr (fun z hz => by simp [hzs z hz])
        simp [List.dropWhile_cons, List.filter_cons, h, hself]

theorem groupRuns_sorted_filter :
    ∀ (l : List α), l.Pairwise (fun a b => key a ≤ key b) →
      ∀ g ∈ groupRuns key l, ∃ k, g ≠ [] ∧ g = l.filter (fun z => decide (key z = k))
  | [], _, g, hg => by simp [groupRuns] at hg
  | x :: xs, hsort, g, hg => by
    rw [List.pairwise_cons] at hsort
    obtain ⟨hx, hxs⟩ := hsort
    obtain ⟨hT, hD⟩ := sorted_takeWhile_dropWhile_eq_filter key x xs hx hxs
    rw [groupRuns_cons, List.mem_cons] at hg
    rcases hg with rfl | hg
    · refine ⟨key x, by simp, ?_⟩
      rw [List.filter_cons]
      simp [hT]
    · have hdrop : (xs.dropWhile (fun z => decide (key z = key x))).Pairwise
          (fun a b => key a ≤ key b) := hxs.sublist (List.dropWhile_sublist _)
      obtain ⟨k, hne, hgf⟩ :=
        groupRuns_sorted_filter (xs.dropWhile (fun z => decide (key z = key x))) hdrop g hg
      refine ⟨k, hne, ?_⟩
      have hkx : ¬ k = key x := by
        obtain ⟨z, hz⟩ := List.exists_mem_of_ne_nil g hne
        rw [hgf, List.mem_filter] at hz
        obtain ⟨hzd, hzk⟩ := hz
        rw [hD, List.mem_filter] at hzd
        rw [decide_eq_true_eq] at hzk
        have hzx : ¬ key z = key x := by
          have := hzd.2
          simpa using this
        intro hc
        exact hzx (hzk.trans hc)
      rw [List.filter_cons]
      simp only [decide_eq_true_eq]
      rw [if_neg (fun hc => hkx hc.symm)]
      rw [hgf, hD, List.filter_filter]
      refine List.filter_congr (fun z _ => ?_)
      by_cases hzk : key z = k
      · simp [hzk, hkx]
      · simp [hzk]
  termination_by l => l.length
  decreasing_by
    simp only [List.length_cons]
    exact Nat.lt_succ_of_le (List.dropWhile_sublist _).length_le

end SortedRuns

/-! ### Properties of dict operations -/

section DictLemmas

variable {κ β : Type} [DecidableEq κ]

theorem dictGet_dictInsert_self (k : κ) (v : β) (l : List (κ × β)) :
    dictGet k (dictInsert k v l) = some v := by
  induction l with
  | nil => simp [dictInsert, dictGet]
  | cons kv rest ih =>
    obtain ⟨k₀, v₀⟩ := kv
    by_cases h : k₀ = k
    · simp [dictInsert, dictGet, h]
    · simp [dictInsert, dictGet, h, ih]

theorem dictGet_dictInsert_ne {k' k : κ} (h : k' ≠ k) (v : β) (l : List (κ × β)) :
    dictGet k' (dictInsert k v l) = dictGet k' l := by
  induction l with
  | nil => simp [dictInsert, dictGet, Ne.symm h]
  | cons kv rest ih =>
    obtain ⟨k₀, v₀⟩ := kv
    by_cases h₀ : k₀ = k
    · subst h₀
      simp [dictInsert, dictGet, Ne.symm h]
    · simp [dictInsert, dictGet, h₀, ih]

theorem dictGet_foldl_insert_of_not_mem {γ : Type} (keyOf : γ → κ) (valOf : γ → β)
    (c : κ) (its : List γ) (d : List (κ × β)) (h : ∀ it ∈ its, keyOf it ≠ c) :
    dictGet c (its.foldl (fun acc it => dictInsert (keyOf it) (valOf it) acc) d) =
      dictGet c d := by
  induction its generalizing d with
  | nil => rfl
  | cons it its ih =>
    rw [List.foldl_cons, ih _ (fun z hz => h z (List.mem_cons_of_mem _ hz)),
      dictGet_dictInsert_ne (fun hc => h it (List.mem_cons_self _ _) hc.symm)]

theorem dictGet_foldl_insert_of_nodup {γ : Type} (keyOf : γ → κ) (valOf : γ → β)
    (its : List γ) (d : List (κ × β)) (hnd : (its.map keyOf).Nodup)
    (r : γ) (hr : r ∈ its) :
    dictGet (keyOf r) (its.foldl (fun acc it => dictInsert (keyOf it) (valOf it) acc) d) =
      some (valOf r) := by
  obtain ⟨s, t, rfl⟩ := List.mem_iff_append.mp hr
  rw [List.foldl_append, List.foldl_cons]
  have hnt : ∀ it ∈ t, keyOf it ≠ keyOf r := by
    intro it hit hc
    rw [List.map_append, List.map_cons] at hnd
    have := (List.nodup_append.mp hnd).2.1
    rw [List.nodup_cons] at this
    exact this.1 (hc ▸ List.mem_map_of_mem keyOf hit)
  rw [dictGet_foldl_insert_of_not_mem _ _ _ _ _ hnt, dictGet_dictInsert_self]

end DictLemmas

/-! ### Properties of the extractor -/

theorem passFilter_nil (x : String) : passFilter [] x = true := by
  simp [passFilter]

theorem processFile_nil_eq (c : Commit) (f : ModifiedFile) :
    processFile c [] [] f = processFileNF c f := by
  simp [processFile, processFileNF, passFilter]

theorem processCommit_nil_eq (c : Commit) :
    processCommit [] [] [] c = processCommitNF c := by
  have hf : processFile c [] [] = processFileNF c := funext (processFile_nil_eq c)
  simp [processCommit, processCommitNF, passFilter, hf]

theorem parseGo_nil_eq : ∀ cs : List Commit, parseGo [] [] [] cs = parseGoNF cs
  | [] => rfl
  | c :: cs => by
    simp only [parseGo, parseGoNF, processCommit_nil_eq, parseGo_nil_eq cs]

theorem processFile_some_spec (c : Commit) (nf ef : List String) (f : ModifiedFile)
    (r : ParsedCommit) (h : processFile c nf ef f = some r) :
    f.complexity = some r.ccn ∧ r.avg_ccn = avgOf r.ccn f.methods.length := by
  simp only [processFile] at h
  split at h
  · split at h
    · split at h
      · exact absurd h (by simp)
      · rename_i complexity hc
        injection h with h
        subst h
        exact ⟨hc, rfl⟩
    · exact absurd h (by simp)
  · exact absurd h (by simp)

theorem processFile_isSome_iff (c : Commit) (nf ef : List String) (f : ModifiedFile)
    (hn : passFilter nf (splitext f.filename).1 = true)
    (he : passFilter ef (splitext f.filename).2 = true) :
    (processFile c nf ef f).isSome ↔ f.complexity ≠ none := by
  simp only [processFile, hn, he, if_true]
  cases hc : f.complexity <;> simp

theorem parseGo_ok_mem (nf ef mf : List String) :
    ∀ (cs : List Commit) (out : List ParsedCommit), parseGo nf ef mf cs = Except.ok out →
      ∀ r ∈ out, ∃ (c : Commit) (f : ModifiedFile), processFile c nf ef f = some r
  | [], out, h, r, hr => by
    simp only [parseGo] at h
    injection h with h
    subst h
    simp at hr
  | c :: cs, out, h, r, hr => by
    simp only [parseGo] at h
    cases hc : processCommit nf ef mf c with
    | error e =>
      simp only [hc] at h
      exact Except.noConfusion h
    | ok rs =>
      simp only [hc] at h
      cases hrest : parseGo nf ef mf cs with
      | error e =>
        simp only [hrest] at h
        exact Except.noConfusion h
      | ok rest =>
        simp only [hrest] at h
        injection h with h
        subst h
        rcases List.mem_append.mp hr with hr | hr
        · simp only [processCommit] at hc
          split at hc
          · cases hf : c.modified_files with
            | none =>
              simp only [hf] at hc
              exact Except.noConfusion hc
            | some files =>
              simp only [hf] at hc
              injection hc with hc
              subst hc
              obtain ⟨f, _, hpf⟩ := List.mem_filterMap.mp hr
              exact ⟨c, f, hpf⟩
          · injection hc with hc
            subst hc
            simp at hr
        · exact parseGo_ok_mem nf ef mf cs rest hrest r hr

theorem avgOf_nonneg (c m : Nat) : 0 ≤ avgOf c m := by
  unfold avgOf
  split
  · exact div_nonneg (Nat.cast_nonneg c) (Nat.cast_nonneg m)
  · exact le_refl 0

/-! ### Properties of the reporter -/

theorem dedup_foldl_nodup {γ δ : Type} [DecidableEq δ] (keyf : γ → δ) :
    ∀ (data : List γ) (init : List δ), init.Nodup →
      (data.foldl (fun acc it => if keyf it ∈ acc then acc else acc ++ [keyf it]) init).Nodup
  | [], _, h => h
  | d :: ds, init, h => by
    rw [List.foldl_cons]
    by_cases hm : keyf d ∈ init
    · rw [if_pos hm]
      exact dedup_foldl_nodup keyf ds init h
    · rw [if_neg hm]
      refine dedup_foldl_nodup keyf ds _ ?_
      rw [List.nodup_append]
      refine ⟨h, List.nodup_singleton _, ?_⟩
      intro a ha hb
      rw [List.mem_singleton] at hb
      exact hm (hb ▸ ha)

theorem dedup_foldl_mem {γ δ : Type} [DecidableEq δ] (keyf : γ → δ) :
    ∀ (data : List γ) (init : List δ) (x : δ),
      (x ∈ data.foldl (fun acc it => if keyf it ∈ acc then acc else acc ++ [keyf it]) init ↔
        x ∈ init ∨ x ∈ data.map keyf)
  | [], init, x => by simp
  | d :: ds, init, x => by
    rw [List.foldl_cons]
    by_cases hm : keyf d ∈ init
    · rw [if_pos hm, dedup_foldl_mem keyf ds init x, List.map_cons, List.mem_cons]
      constructor
      · tauto
      · rintro (h | rfl | h) <;> tauto
    · rw [if_neg hm, dedup_foldl_mem keyf ds (init ++ [keyf d]) x, List.map_cons,
        List.mem_cons, List.mem_append, List.mem_singleton]
      tauto

theorem pySort_string_sorted (l : List String) :
    (pySort (fun s => s.data) l).Pairwise (· ≤ ·) :=
  (pySort_pairwise (fun s : String => s.data) l).imp
    (fun h => String.le_iff_toList_le.mpr h)

theorem pySort_key_string_sorted {α : Type} (key : α → String) (l : List α) :
    (pySort (fun x => (key x).data) l).Pairwise (fun a b => key a ≤ key b) :=
  (pySort_pairwise (fun x => (key x).data) l).imp
    (fun h => String.le_iff_toList_le.mpr h)

/-! ### Claim theorems -/

/-- C1: a commit with an *empty* modified-file list contributes zero
records and no error, but a commit with an *absent* (`None`) modified-file
list makes `parse_commits` raise `TypeError` (after logging the merge
marker), and processing does not continue with the remaining commits — the
code contradicts the claimed (and logged) skip-and-continue intent. -/
theorem claim1_absent_modified_files_raises :
    parse_commits [emptyFilesCommit] [] [] [] = Except.ok [] ∧
    parse_commits [absentFilesCommit] [] [] [] =
      Except.error "TypeError: NoneType object is not iterable" ∧
    parse_commits [absentFilesCommit, emptyFilesCommit] [] [] [] =
      Except.error "TypeError: NoneType object is not iterable" :=
  ⟨rfl, rfl, rfl⟩

/-- C2: the average-complexity computation is total and safe — it equals
`complexity / method_count` when `method_count > 0` and `0` when
`method_count = 0`, never a division error, and every record any
`parse_commits` run emits has a non-negative average of exactly this
form (e.g. `avgOf 10 0 = 0`, `avgOf 10 5 = 2`). -/
theorem claim2_average_complexity_safe :
    (∀ c m : Nat, 0 ≤ avgOf c m) ∧
    (∀ c m : Nat, 0 < m → avgOf c m = (c : ℚ) / m) ∧
    (∀ c : Nat, avgOf c 0 = 0) ∧
    avgOf 10 0 = 0 ∧ avgOf 10 5 = 2 ∧
    (∀ (commits : List Commit) (nf ef mf : List String) (out : List ParsedCommit),
      parse_commits commits nf ef mf = Except.ok out →
      ∀ r ∈ out, 0 ≤ r.avg_ccn ∧ ∃ m, r.avg_ccn = avgOf r.ccn m) := by
  refine ⟨avgOf_nonneg, ?_, ?_, ?_, ?_, ?_⟩
  · intro c m hm
    simp [avgOf, hm]
  · intro c
    simp [avgOf]
  · simp [avgOf]
  · norm_num [avgOf]
  · intro commits nf ef mf out h r hr
    obtain ⟨c, f, hpf⟩ := parseGo_ok_mem nf ef mf commits out h r hr
    obtain ⟨_, ha⟩ := processFile_some_spec c nf ef f r hpf
    exact ⟨ha ▸ avgOf_nonneg r.ccn f.methods.length, f.methods.length, ha⟩

/-- Witness for C2 at concrete inputs: `avgOf 10 5 = 10 / 5` with the
positivity hypothesis discharged at `5`, and the record extracted from
`avgCommit` has a non-negative average. -/
theorem claim2_average_complexity_safe_witness :
    avgOf 10 5 = (10 : ℚ) / 5 ∧ 0 ≤ avgRec.avg_ccn := by
  have t := claim2_average_complexity_safe
  refine ⟨t.2.1 10 5 (by norm_num), ?_⟩
  have h := t.2.2.2.2.2 [avgCommit] [] [] [] [avgRec] rfl avgRec (List.Mem.head _)
  exact h.1

/-- C3: both groupings are lossless partitions — the group sizes of
`group_data_by_file` (and of `group_data_by_date`) sum to the input
length, the concatenation of the groups is a permutation of the input,
and every record occurs in the groups exactly as often as in the input. -/
theorem claim3_grouping_lossless_partition (l : List ParsedCommit) :
    (((groupedByFile l).map List.length).sum = l.length ∧
      List.Perm (groupedByFile l).flatten l ∧
      (∀ r : ParsedCommit,
        ((groupedByFile l).map (fun g => g.count r)).sum = l.count r)) ∧
    (((groupedByDate l).map List.length).sum = l.length ∧
      List.Perm (groupedByDate l).flatten l ∧
      (∀ r : ParsedCommit,
        ((groupedByDate l).map (fun g => g.count r)).sum = l.count r)) := by
  have hf : (groupedByFile l).flatten = pySort (fun x => x.file_name.data) l :=
    groupRuns_flatten _ _
  have hd : (groupedByDate l).flatten = pySort (fun x => x.date.data) l :=
    groupRuns_flatten _ _
  have pf := (pySort_perm (fun x : ParsedCommit => x.file_name.data) l)
  have pd := (pySort_perm (fun x : ParsedCommit => x.date.data) l)
  constructor
  · refine ⟨?_, ?_, ?_⟩
    · rw [← List.length_flatten, hf]
      exact pf.length_eq
    · rw [hf]
      exact pf
    · intro r
      rw [← List.count_flatten, hf]
      exact pf.count_eq r
  · refine ⟨?_, ?_, ?_⟩
    · rw [← List.length_flatten, hd]
      exact pd.length_eq
    · rw [hd]
      exact pd
    · intro r
      rw [← List.count_flatten, hd]
      exact pd.count_eq r

/-- C4 counterexample: on the synthetic two-commit scenario the
grouped-by-file report is an *array* of flat records whose values are the
pre-formatted strings `"2.000"` / `"3.000"` — it is not an object (a
mapping from file name), and it contains no nested `avg_ccn` float
objects, so the claimed report shape is wrong. -/
theorem claim4_scenario_report_is_array_of_strings :
    jvalOfFileReport (group_data_by_file [recFoo1, recFoo2]) =
      JVal.arr [JVal.obj [("filename", JVal.str "foo"), ("ts1", JVal.str "2.000"),
        ("ts2", JVal.str "3.000")]] ∧
    (jvalOfFileReport (group_data_by_file [recFoo1, recFoo2])).isObj = false :=
  ⟨rfl, rfl⟩

/-- C4 (amended): the scenario extracts exactly the two `foo` records with
averages 2 and 3 (`bar.py` is skipped), the grouped-by-file report equals
the one-element list `[{filename: foo, ts1: "2.000", ts2: "3.000"}]` —
each timestamp mapped to the 3-decimal string of the average — and the
file-list output equals `["foo"]`. -/
theorem claim4_end_to_end_scenario :
    parse_commits [commitFoo1, commitFoo2] [] [".c"] [] =
      Except.ok [recFoo1, recFoo2] ∧
    recFoo1.avg_ccn = avgOf 4 2 ∧ recFoo2.avg_ccn = avgOf 9 3 ∧
    group_data_by_file [recFoo1, recFoo2] =
      [[("filename", "foo"), ("ts1", "2.000"), ("ts2", "3.000")]] ∧
    get_list_of_files [recFoo1, recFoo2] = ["foo"] := by
  have e1 : avgOf 4 2 = 2 := by norm_num [avgOf]
  have e2 : avgOf 9 3 = 3 := by norm_num [avgOf]
  refine ⟨?_, by rw [e1]; rfl, by rw [e2]; rfl, by decide, by decide⟩
  have base : parse_commits [commitFoo1, commitFoo2] [] [".c"] [] =
      Except.ok [⟨"h1", "ts1", "alice", "a@x", ["main"], "foo", 4, avgOf 4 2⟩,
                 ⟨"h2", "ts2", "bob", "b@x", ["main"], "foo", 9, avgOf 9 3⟩] := rfl
  rw [e1, e2] at base
  exact base

/-- C5: an empty filter set filters nothing — the pass-predicate used on
every dimension (author email, file stem, file extension) accepts every
value when the filter list is empty, and extraction with all three filters
empty is extensionally equal to the spec's "no filtering at all" variant,
hence also produces the same file-name list. -/
theorem claim5_empty_filter_means_unfiltered :
    (∀ x : String, passFilter [] x = true) ∧
    (∀ commits : List Commit,
      parse_commits commits [] [] [] = parse_commits_nofilter commits) ∧
    (∀ (commits : List Commit) (out outNF : List ParsedCommit),
      parse_commits commits [] [] [] = Except.ok out →
      parse_commits_nofilter commits = Except.ok outNF →
      get_list_of_files out = get_list_of_files outNF) := by
  refine ⟨passFilter_nil, parseGo_nil_eq, ?_⟩
  intro commits out outNF h1 h2
  rw [parse_commits, parseGo_nil_eq] at h1
  rw [parse_commits_nofilter] at h2
  rw [h1] at h2
  injection h2 with h2
  rw [h2]

/-- Witness for C5 at a concrete input: with empty filters the scenario
commits yield the same file list as with no filtering at all. -/
theorem claim5_empty_filter_means_unfiltered_witness :
    get_list_of_files [⟨"h1", "ts1", "alice", "a@x", ["main"], "foo", 4, avgOf 4 2⟩,
        ⟨"h1", "ts1", "alice", "a@x", ["main"], "bar", 7, avgOf 7 1⟩] =
      get_list_of_files [⟨"h1", "ts1", "alice", "a@x", ["main"], "foo", 4, avgOf 4 2⟩,
        ⟨"h1", "ts1", "alice", "a@x", ["main"], "bar", 7, avgOf 7 1⟩] :=
  claim5_empty_filter_means_unfiltered.2.2
    [⟨"h1", "ts1", "alice", "a@x", ["main"],
      some [⟨"foo.c", some 4, ["m1", "m2"]⟩, ⟨"bar.py", some 7, ["m1"]⟩]⟩]
    _ _ rfl rfl

/-- C6 counterexample: `claimSkipIffNoComplexity` is false — with
extension filter `[".c"]`, the file `bar.py` has computable complexity
(`some 5`) yet contributes no record, so "skipped exactly when complexity
is absent" fails once a name/extension filter is non-empty. -/
theorem claim6_skip_iff_counterexample : ¬ claimSkipIffNoComplexity := by
  intro h
  have h2 := (h barpyPresentCommit [] [".c"] [barpyPresentMF] barpyPresentMF rfl
    (List.Mem.head _)).mpr (by decide)
  exact absurd h2 (by decide)

/-- C6 (amended): among modified-file records that pass the name and
extension filters, extraction skips a record exactly when its complexity
is absent; in particular a record with measured complexity 0 is included
(with average `avgOf 0 _`), and a surviving commit contributes exactly the
`filterMap` of its files. -/
theorem claim6_skip_iff_no_complexity_after_filters (commit : Commit)
    (nf ef : List String) (f : ModifiedFile)
    (hn : passFilter nf (splitext f.filename).1 = true)
    (he : passFilter ef (splitext f.filename).2 = true) :
    ((processFile commit nf ef f).isSome ↔ f.complexity ≠ none) ∧
    (f.complexity = some 0 →
      ∃ r, processFile commit nf ef f = some r ∧ r.ccn = 0 ∧
        r.avg_ccn = avgOf 0 f.methods.length) ∧
    (∀ files, commit.modified_files = some files →
      parse_commits [commit] nf ef [] =
        Except.ok (files.filterMap (processFile commit nf ef))) := by
  refine ⟨processFile_isSome_iff commit nf ef f hn he, ?_, ?_⟩
  · intro h0
    have hs : (processFile commit nf ef f).isSome :=
      (processFile_isSome_iff commit nf ef f hn he).mpr (by simp [h0])
    obtain ⟨r, hr⟩ := Option.isSome_iff_exists.mp hs
    obtain ⟨hc, ha⟩ := processFile_some_spec commit nf ef f r hr
    rw [h0] at hc
    injection hc with hc
    exact ⟨r, hr, hc.symm, by rw [ha, ← hc]⟩
  · intro files hf
    simp [parse_commits, parseGo, processCommit, passFilter, hf]

/-- Witness for C6 at a concrete input: the zero-complexity file passes
empty filters and is included with `ccn = 0`. -/
theorem claim6_skip_iff_no_complexity_after_filters_witness :
    ((processFile zeroCommit [] [] zeroMF).isSome ↔ zeroMF.complexity ≠ none) ∧
    (∃ r, processFile zeroCommit [] [] zeroMF = some r ∧ r.ccn = 0 ∧
      r.avg_ccn = avgOf 0 zeroMF.methods.length) := by
  have h := claim6_skip_iff_no_complexity_after_filters zeroCommit [] [] zeroMF
    (by decide) (by decide)
  exact ⟨h.1, h.2.1 rfl⟩

/-- C7: `group_data_by_file` stable-sorts by file name and partitions into
contiguous runs — every emitted group is exactly the subsequence of the
*original* input with one fixed file name, in original (chronological)
order; and (for distinct timestamps within a group) the group's record
maps each timestamp to the average complexity rendered as a fixed
3-decimal-place string, not a raw float. -/
theorem claim7_group_by_file_stable_runs (l : List ParsedCommit)
    (g : List ParsedCommit) (hg : g ∈ groupedByFile l) :
    (∃ k : String, g ≠ [] ∧ g = l.filter (fun r => decide (r.file_name = k))) ∧
    ((g.map ParsedCommit.date).Nodup →
      ∀ r ∈ g, dictGet r.date (mkFileRecord g) = some (fmt3 r.avg_ccn)) ∧
    group_data_by_file l = (groupedByFile l).map mkFileRecord := by
  refine ⟨?_, ?_, rfl⟩
  · rw [groupedByFile] at hg
    have hsorted : (pySort (fun x : ParsedCommit => x.file_name.data) l).Pairwise
        (fun a b => a.file_name ≤ b.file_name) :=
      pySort_key_string_sorted (fun x : ParsedCommit => x.file_name) l
    obtain ⟨k, hne, hgf⟩ := groupRuns_sorted_filter (fun x : ParsedCommit => x.file_name)
      (pySort (fun x : ParsedCommit => x.file_name.data) l) hsorted g hg
    refine ⟨k, hne, ?_⟩
    rw [hgf]
    have hcv : ∀ m : List ParsedCommit,
        m.filter (fun z => decide (z.file_name = k)) =
          m.filter (fun z => decide (z.file_name.data = k.data)) :=
      fun m => List.filter_congr (fun z _ => decide_eq_decide.mpr String.ext_iff)
    rw [hcv, pySort_filter_key (fun x : ParsedCommit => x.file_name.data) k.data l, ← hcv]
  · intro hnd r hr
    cases g with
    | nil => exact absurd hr (List.not_mem_nil r)
    | cons r₀ rs =>
      exact dictGet_foldl_insert_of_nodup ParsedCommit.date (fun it => fmt3 it.avg_ccn)
        (r₀ :: rs) [("filename", r₀.file_name)] hnd r hr

/-- Witness for C7 at the concrete scenario group: the group of the two
`foo` records is the filter of the input at `"foo"`, and its record maps
`"ts1"` to the formatted average of the first record. -/
theorem claim7_group_by_file_stable_runs_witness :
    (∃ k : String, ([recFoo1, recFoo2] : List ParsedCommit) ≠ [] ∧
      [recFoo1, recFoo2] =
        List.filter (fun r => decide (r.file_name = k)) [recFoo1, recFoo2]) ∧
    dictGet "ts1" (mkFileRecord [recFoo1, recFoo2]) = some (fmt3 recFoo1.avg_ccn) := by
  have h := claim7_group_by_file_stable_runs [recFoo1, recFoo2] [recFoo1, recFoo2] (by decide)
  exact ⟨h.1, h.2.1 (by decide) recFoo1 (List.Mem.head _)⟩

/-- C8: `get_list_of_files` and `get_list_of_user_emails` return
duplicate-free lists, sorted ascending, containing exactly the file names
and author emails occurring in the input; e.g. emails
`["b@x", "a@x", "a@x"]` yield `["a@x", "b@x"]`. -/
theorem claim8_file_email_lists_sorted_unique :
    (∀ data : List ParsedCommit,
      (get_list_of_files data).Nodup ∧
      (get_list_of_files data).Pairwise (· ≤ ·) ∧
      (∀ s, s ∈ get_list_of_files data ↔ s ∈ data.map ParsedCommit.file_name) ∧
      (get_list_of_user_emails data).Nodup ∧
      (get_list_of_user_emails data).Pairwise (· ≤ ·) ∧
      (∀ s, s ∈ get_list_of_user_emails data ↔ s ∈ data.map ParsedCommit.email)) ∧
    get_list_of_user_emails
        [⟨"h", "d", "u", "b@x", [], "f", 0, 0⟩, ⟨"h", "d", "u", "a@x", [], "f", 0, 0⟩,
         ⟨"h", "d", "u", "a@x", [], "f", 0, 0⟩] = ["a@x", "b@x"] := by
  constructor
  · intro data
    refine ⟨?_, pySort_string_sorted _, ?_, ?_, pySort_string_sorted _, ?_⟩
    · exact ((pySort_perm _ _).nodup_iff).mpr
        (dedup_foldl_nodup ParsedCommit.file_name data [] List.nodup_nil)
    · intro s
      rw [get_list_of_files, (pySort_perm _ _).mem_iff,
        dedup_foldl_mem ParsedCommit.file_name data [] s]
      simp
    · exact ((pySort_perm _ _).nodup_iff).mpr
        (dedup_foldl_nodup ParsedCommit.email data [] List.nodup_nil)
    · intro s
      rw [get_list_of_user_emails, (pySort_perm _ _).mem_iff,
        dedup_foldl_mem ParsedCommit.email data [] s]
      simp
  · decide

/-- C9: both grouping functions sort the caller's list in place — after
`group_data_by_file` the argument holds the records sorted by file name
(a permutation of what it held before), after `group_data_by_date` sorted
by date; and on a concrete two-record input the list is indeed permuted
away from its original order. -/
theorem claim9_grouping_sorts_argument_in_place :
    (∀ l : List ParsedCommit,
      List.Perm (group_data_by_file_st l).2 l ∧
      (group_data_by_file_st l).2.Pairwise (fun a b => a.file_name ≤ b.file_name) ∧
      List.Perm (group_data_by_date_st l).2 l ∧
      (group_data_by_date_st l).2.Pairwise (fun a b => a.date ≤ b.date)) ∧
    (group_data_by_file_st
        [⟨"h1", "d1", "u", "e", [], "b", 0, 0⟩, ⟨"h2", "d2", "u", "e", [], "a", 0, 0⟩]).2 ≠
      [⟨"h1", "d1", "u", "e", [], "b", 0, 0⟩, ⟨"h2", "d2", "u", "e", [], "a", 0, 0⟩] := by
  constructor
  · intro l
    exact ⟨pySort_perm _ l,
      pySort_key_string_sorted (fun x : ParsedCommit => x.file_name) l,
      pySort_perm _ l,
      pySort_key_string_sorted (fun x : ParsedCommit => x.date) l⟩
  · decide

/-- C10: the writer writes to `output_file_name + ".json"` — not to the
given name verbatim — serializing with 2-space indentation, and replaces
whatever content the file system held at that path while leaving every
other path untouched. -/
theorem claim10_writer_appends_json_suffix (output_file_name : String) (data : JVal)
    (fs : List (String × String)) :
    write_data_to_json output_file_name data fs =
      dictInsert (output_file_name ++ ".json") (jsonDumps data 2) fs ∧
    dictGet (output_file_name ++ ".json") (write_data_to_json output_file_name data fs) =
      some (jsonDumps data 2) ∧
    (∀ p, p ≠ output_file_name ++ ".json" →
      dictGet p (write_data_to_json output_file_name data fs) = dictGet p fs) ∧
    output_file_name ≠ output_file_name ++ ".json" := by
  refine ⟨rfl, dictGet_dictInsert_self _ _ _, ?_, ?_⟩
  · intro p hp
    exact dictGet_dictInsert_ne hp _ _
  · intro hc
    have hlen := congrArg (fun s : String => s.data.length) hc
    have h5 : (".json" : String).data.length = 5 := rfl
    simp only [String.data_append, List.length_append, h5] at hlen
    omega

/-- Witness for C10 at concrete inputs: writing `"out"` overwrites the
existing content at `"out.json"` and leaves the path `"other"` alone. -/
theorem claim10_writer_appends_json_suffix_witness :
    dictGet "out.json" (write_data_to_json "out" (JVal.str "x") [("out.json", "old")]) =
      some (jsonDumps (JVal.str "x") 2) ∧
    dictGet "other" (write_data_to_json "out" (JVal.str "x") [("other", "keep")]) =
      some "keep" := by
  have h1 := claim10_writer_appends_json_suffix "out" (JVal.str "x") [("out.json", "old")]
  have h2 := claim10_writer_appends_json_suffix "out" (JVal.str "x") [("other", "keep")]
  refine ⟨h1.2.1, (h2.2.2.1 "other" (by decide)).trans rfl⟩
